import Mathlib

/-!
# Verification of the hybrid memory-search engine

A shallow embedding, over `ℚ`, of the memory subsystem: the hybrid searcher
(`src/lliam/src/memory/search.ts`), the record store and capture path
(`MemoryDatabase` / `MemoryCapture`), and the deterministic hash-based
embedding provider (`SimpleHashEmbeddingProvider`).

JavaScript numbers are modelled as rationals; SQLite full-text results and
the SHA-256 digest are modelled as explicit parameters (they are external
to the algorithms under verification).  `Array.prototype.sort`, which is
required to be stable by the ECMAScript standard, is modelled by a stable
descending insertion sort.
-/

namespace LliamMemory

/-- An `(id, score)` pair as produced by the vector and keyword searches. -/
structure ScoredId where
  id : String
  score : ℚ
deriving DecidableEq, Repr

/-- Provenance of a merged search result (`"vector" | "keyword" | "hybrid"`). -/
inductive MatchType where
  | vector
  | keyword
  | hybrid
deriving DecidableEq, Repr

/-- An entry of the merged, ranked result list produced by `mergeResults`. -/
structure MergedScored where
  id : String
  score : ℚ
  matchType : MatchType
deriving DecidableEq, Repr

/-- `SearchOptions` with all defaults applied (`Required<SearchOptions>`). -/
structure SearchOptions where
  maxResults : ℕ
  minScore : ℚ
  vectorSearch : Bool
  keywordSearch : Bool
  vectorWeight : ℚ
  keywordWeight : ℚ
  candidateMultiplier : ℕ
deriving DecidableEq, Repr

/-- `DEFAULT_OPTIONS` from `search.ts`. -/
def DEFAULT_OPTIONS : SearchOptions :=
  { maxResults := 6
    minScore := 3/10
    vectorSearch := true
    keywordSearch := true
    vectorWeight := 7/10
    keywordWeight := 3/10
    candidateMultiplier := 4 }

/-! ## Vector math (`embeddings.ts`) -/

/-- The dot product loop of `cosineSimilarity` (summing `a[i] * b[i]`). -/
def dot : List ℚ → List ℚ → ℚ
  | a :: as_, b :: bs => a * b + dot as_ bs
  | _, _ => 0

/-- `cosineSimilarity(a, b)`: throws (`none`) on a dimension mismatch,
otherwise returns the dot product (vectors are assumed pre-normalized). -/
def cosineSimilarity (a b : List ℚ) : Option ℚ :=
  if a.length = b.length then some (dot a b) else none

/-! ## Stable descending sort

`results.sort((a, b) => b.score - a.score)` — ECMAScript `Array.prototype.sort`
is stable, so the result is the unique stable descending-by-score ordering,
here realised by insertion sort. -/

/-- Insert `r` into a list sorted descending by `key`, after all entries of
greater-or-equal key (stability). -/
def insertDesc {α : Type} (key : α → ℚ) (r : α) : List α → List α
  | [] => [r]
  | x :: xs => if key x < key r then r :: x :: xs else x :: insertDesc key r xs

/-- Stable sort, descending by `key`. -/
def sortDesc {α : Type} (key : α → ℚ) : List α → List α
  | [] => []
  | x :: xs => insertDesc key x (sortDesc key xs)

theorem insertDesc_perm {α : Type} (key : α → ℚ) (r : α) (l : List α) :
    (insertDesc key r l).Perm (r :: l) := by
  induction l with
  | nil => simp [insertDesc]
  | cons x xs ih =>
    by_cases h : key x < key r
    · simp [insertDesc, h]
    · simp only [insertDesc, if_neg h]
      exact (ih.cons x).trans (List.Perm.swap r x xs)

theorem sortDesc_perm {α : Type} (key : α → ℚ) (l : List α) :
    (sortDesc key l).Perm l := by
  induction l with
  | nil => simp [sortDesc]
  | cons x xs ih =>
    exact (insertDesc_perm key x (sortDesc key xs)).trans (ih.cons x)

theorem mem_sortDesc {α : Type} (key : α → ℚ) (l : List α) (a : α) :
    a ∈ sortDesc key l ↔ a ∈ l :=
  (sortDesc_perm key l).mem_iff

theorem insertDesc_sorted {α : Type} (key : α → ℚ) (r : α) (l : List α)
    (h : l.Pairwise (fun x y => key y ≤ key x)) :
    (insertDesc key r l).Pairwise (fun x y => key y ≤ key x) := by
  induction l with
  | nil => simp [insertDesc]
  | cons x xs ih =>
    rcases List.pairwise_cons.mp h with ⟨hx, hxs⟩
    by_cases hlt : key x < key r
    · simp only [insertDesc, if_pos hlt]
      refine List.pairwise_cons.mpr ⟨?_, h⟩
      intro y hy
      rcases List.mem_cons.mp hy with rfl | hy
      · exact le_of_lt hlt
      · exact le_trans (hx y hy) (le_of_lt hlt)
    · simp only [insertDesc, if_neg hlt]
      refine List.pairwise_cons.mpr ⟨?_, ih hxs⟩
      intro y hy
      rcases List.mem_cons.mp ((insertDesc_perm key r xs).mem_iff.mp hy) with rfl | hy
      · exact le_of_not_lt hlt
      · exact hx y hy

theorem sortDesc_sorted {α : Type} (key : α → ℚ) (l : List α) :
    (sortDesc key l).Pairwise (fun x y => key y ≤ key x) := by
  induction l with
  | nil => simp [sortDesc]
  | cons x xs ih => exact insertDesc_sorted key x (sortDesc key xs) ih

/-! ## Vector search (`HybridSearcher.vectorSearch`) -/

/-- Score one stored embedding against the query: cosine similarity remapped
from `[-1,1]` to `[0,1]` via `(sim+1)/2`; a thrown dimension mismatch is
caught and scored `0`. -/
def vectorScoreOf (queryVec : List ℚ) (p : String × List ℚ) : ScoredId :=
  match cosineSimilarity queryVec p.2 with
  | some sim => ⟨p.1, (sim + 1) / 2⟩
  | none => ⟨p.1, 0⟩

/-- `HybridSearcher.vectorSearch` after a successful query embedding:
score every stored `(id, embedding)` pair, drop non-positive scores,
sort descending, truncate to `limit`. -/
def vectorSearch (queryVec : List ℚ) (allEmbeddings : List (String × List ℚ))
    (limit : ℕ) : List ScoredId :=
  if allEmbeddings = [] then []
  else
    ((sortDesc (·.score)
        ((allEmbeddings.map (vectorScoreOf queryVec)).filter (fun r => 0 < r.score))).take
      limit)

/-! ## Keyword search normalization (`HybridSearcher.keywordSearchInternal`) -/

/-- `Math.max(...)` over a non-empty list of scores (the `[]` case never
arises at the call site, which returns early on an empty result set). -/
def listMax : List ℚ → ℚ
  | [] => 0
  | [x] => x
  | x :: y :: xs => max x (listMax (y :: xs))

/-- `HybridSearcher.keywordSearchInternal` applied to the raw FTS result set
(the FTS engine itself is external): normalize scores by the maximum raw
score when that maximum is positive, else by 1. -/
def keywordSearchInternal (rawResults : List ScoredId) : List ScoredId :=
  if rawResults = [] then []
  else
    let maxScore := listMax (rawResults.map (·.score))
    let normalizer := if 0 < maxScore then maxScore else 1
    rawResults.map (fun r => ⟨r.id, r.score / normalizer⟩)

/-! ## Merge (`HybridSearcher.mergeResults`)

The JavaScript `Map` keyed by id is modelled as an association list in
insertion order; `Map.set` overwrites in place when the key exists and
appends otherwise. -/

/-- Partial scores accumulated per id in the merge map. -/
structure MergeScores where
  vectorScore : ℚ
  keywordScore : ℚ
deriving DecidableEq, Repr

/-- `Map.set`: replace in place if the key is present, else append. -/
def mapSet (l : List (String × MergeScores)) (k : String) (v : MergeScores) :
    List (String × MergeScores) :=
  match l with
  | [] => [(k, v)]
  | (k', v') :: rest =>
    if k' = k then (k, v) :: rest else (k', v') :: mapSet rest k v

/-- `Map.get`. -/
def mapGet (l : List (String × MergeScores)) (k : String) : Option MergeScores :=
  match l with
  | [] => none
  | (k', v') :: rest => if k' = k then some v' else mapGet rest k

/-- Phase 1 of `mergeResults`: enter every vector result. -/
def addVectorResults (vectorResults : List ScoredId) :
    List (String × MergeScores) :=
  vectorResults.foldl (fun acc r => mapSet acc r.id ⟨r.score, 0⟩) []

/-- Phase 2 of `mergeResults`: merge every keyword result into the map. -/
def addKeywordResults (keywordResults : List ScoredId)
    (acc : List (String × MergeScores)) : List (String × MergeScores) :=
  keywordResults.foldl
    (fun acc r =>
      match mapGet acc r.id with
      | some s => mapSet acc r.id ⟨s.vectorScore, r.score⟩
      | none => mapSet acc r.id ⟨0, r.score⟩)
    acc

/-- Final score and match type of one map entry. -/
def mergeEntry (options : SearchOptions) (e : String × MergeScores) :
    MergedScored :=
  { id := e.1
    score := options.vectorWeight * e.2.vectorScore +
      options.keywordWeight * e.2.keywordScore
    matchType :=
      if 0 < e.2.vectorScore ∧ 0 < e.2.keywordScore then .hybrid
      else if 0 < e.2.vectorScore then .vector
      else .keyword }

/-- `HybridSearcher.mergeResults`: weighted combination keyed by id, sorted
by final score descending. -/
def mergeResults (vectorResults keywordResults : List ScoredId)
    (options : SearchOptions) : List MergedScored :=
  sortDesc (·.score)
    ((addKeywordResults keywordResults (addVectorResults vectorResults)).map
      (mergeEntry options))

/-! ## Top-level search (`HybridSearcher.search`)

The query embedding (`none` when the embedder throws), the stored
embeddings, the raw FTS result set, and the predicate "id exists in the
`memories` table at hydration time" are the external inputs. -/

/-- `HybridSearcher.search`, returning the `(id, score, matchType)` part of
each `MemorySearchResult` (the hydrated record carries no further score
information). -/
def search (queryEmbed : Option (List ℚ)) (allEmbeddings : List (String × List ℚ))
    (rawKeywordResults : List ScoredId) (opts : SearchOptions)
    (present : String → Bool) : List MergedScored :=
  let candidateLimit := opts.maxResults * opts.candidateMultiplier
  let vectorResults :=
    if opts.vectorSearch then
      match queryEmbed with
      | some q => vectorSearch q allEmbeddings candidateLimit
      | none => []
    else []
  let keywordResults :=
    if opts.keywordSearch then keywordSearchInternal rawKeywordResults else []
  let merged := mergeResults vectorResults keywordResults opts
  let topIds :=
    (((merged.filter (fun r => opts.minScore ≤ r.score)).take opts.maxResults).map
      (·.id))
  if topIds = [] then []
  else
    let fetchedIds := topIds.filter present
    ((merged.filter (fun r => opts.minScore ≤ r.score ∧ r.id ∈ fetchedIds)).take
      opts.maxResults)

/-! ## Record store (`MemoryDatabase`, `db.ts`)

`Date.now()` and `randomUUID()` are passed in as explicit parameters; the
`memories` table is a list of records in rowid order, plus the `dirty`
flag. -/

/-- A row of the `memories` table (the fields the claims touch). -/
structure MemRecord where
  id : String
  category : String
  content : String
  embedding : Option (List ℚ)
  embeddingModel : Option String
  embeddingDims : Option ℕ
  sourceType : String
  sourceSession : Option String
  confidence : ℚ
  tags : List String
  createdAt : ℤ
  updatedAt : ℤ
  lastAccessedAt : ℤ
  accessCount : ℕ
deriving DecidableEq, Repr

/-- The in-memory database state. -/
structure DbState where
  memories : List MemRecord
  dirty : Bool
deriving DecidableEq, Repr

/-- `CreateMemoryInput`. -/
structure CreateMemoryInput where
  content : String
  category : Option String
  embedding : Option (List ℚ)
  embeddingModel : Option String
  sourceType : Option String
  sourceSession : Option String
  confidence : Option ℚ
  tags : Option (List String)
deriving DecidableEq, Repr

/-- `UpdateMemoryInput` (a `none` field is `undefined`: not part of the update). -/
structure UpdateMemoryInput where
  content : Option String
  category : Option String
  embedding : Option (List ℚ)
  embeddingModel : Option String
  confidence : Option ℚ
  tags : Option (List String)
deriving DecidableEq, Repr

/-- `MemoryDatabase.createMemory`: insert a new row (id from `randomUUID`,
timestamps from `Date.now()`), mark dirty, return the id. -/
def createMemory (input : CreateMemoryInput) (newId : String) (now : ℤ)
    (s : DbState) : String × DbState :=
  let record : MemRecord :=
    { id := newId
      category := input.category.getD "other"
      content := input.content
      embedding := input.embedding
      embeddingModel := input.embeddingModel
      embeddingDims := input.embedding.map List.length
      sourceType := input.sourceType.getD "manual"
      sourceSession := input.sourceSession
      confidence := input.confidence.getD 1
      tags := input.tags.getD []
      createdAt := now
      updatedAt := now
      lastAccessedAt := now
      accessCount := 0 }
  (newId, { memories := s.memories ++ [record], dirty := true })

/-- `MemoryDatabase.getMemory`: `null` when the id is absent (no state
change); otherwise bump `last_accessed_at` / `access_count`, mark dirty,
and return the updated row. -/
def getMemory (id : String) (now : ℤ) (s : DbState) :
    Option MemRecord × DbState :=
  if s.memories.any (fun r => r.id = id) then
    let updated := s.memories.map (fun r =>
      if r.id = id then
        { r with lastAccessedAt := now, accessCount := r.accessCount + 1 }
      else r)
    ((updated.find? (fun r => r.id = id)), { memories := updated, dirty := true })
  else (none, s)

/-- The `SET` field list of `updateMemory` is non-empty iff some input field
is defined. -/
def updateHasFields (input : UpdateMemoryInput) : Bool :=
  input.content.isSome || input.category.isSome || input.embedding.isSome ||
    input.embeddingModel.isSome || input.confidence.isSome || input.tags.isSome

/-- Apply the defined fields of an update to one row (`UPDATE ... WHERE id`). -/
def applyUpdate (input : UpdateMemoryInput) (now : ℤ) (r : MemRecord) :
    MemRecord :=
  { r with
    content := input.content.getD r.content
    category := input.category.getD r.category
    embedding := match input.embedding with
      | some e => some e
      | none => r.embedding
    embeddingDims := match input.embedding with
      | some e => some e.length
      | none => r.embeddingDims
    embeddingModel := match input.embeddingModel with
      | some m => some m
      | none => r.embeddingModel
    confidence := input.confidence.getD r.confidence
    tags := input.tags.getD r.tags
    updatedAt := now }

/-- `MemoryDatabase.updateMemory`: `false` when no field is set; otherwise
run the `UPDATE` (which may affect zero rows), mark dirty, and return
`true` — even when the id does not exist. -/
def updateMemory (id : String) (input : UpdateMemoryInput) (now : ℤ)
    (s : DbState) : Bool × DbState :=
  if updateHasFields input then
    let updated := s.memories.map (fun r =>
      if r.id = id then applyUpdate input now r else r)
    (true, { memories := updated, dirty := true })
  else (false, s)

/-- `MemoryDatabase.deleteMemory`: `false` when the id is absent (no state
change); otherwise delete the row (and its FTS entry), mark dirty. -/
def deleteMemory (id : String) (s : DbState) : Bool × DbState :=
  if s.memories.any (fun r => r.id = id) then
    (true, { memories := s.memories.filter (fun r => r.id ≠ id), dirty := true })
  else (false, s)

/-- `MemoryDatabase.getAllEmbeddings`: every `(id, embedding)` pair with a
stored embedding, in rowid order. -/
def getAllEmbeddings (s : DbState) : List (String × List ℚ) :=
  s.memories.filterMap (fun r => r.embedding.map (fun e => (r.id, e)))

/-! ## JavaScript strings

A JavaScript string is a sequence of characters, modelled as `List Char`
(Lean's `String` is UTF-8-backed and its operations are not the object of
verification). -/

/-- JavaScript string model. -/
abbrev JSStr := List Char

/-- `text.toLowerCase()`. -/
def jsToLower (s : JSStr) : JSStr := s.map Char.toLower

/-- `text.trim()`. -/
def jsTrim (s : JSStr) : JSStr :=
  ((s.dropWhile Char.isWhitespace).reverse.dropWhile Char.isWhitespace).reverse

/-- Helper for `split(/\s+/)`: collect maximal non-whitespace runs
(`cur` is the current run, reversed). -/
def wsSplitAux (cur : JSStr) : JSStr → List JSStr
  | [] => if cur = [] then [] else [cur.reverse]
  | c :: cs =>
    if c.isWhitespace then
      if cur = [] then wsSplitAux [] cs
      else cur.reverse :: wsSplitAux [] cs
    else wsSplitAux (c :: cur) cs

/-- `text.split(/\s+/)`, up to empty pieces: the maximal non-whitespace
runs of the string.  JavaScript additionally yields a single leading empty
string when the input begins with whitespace (and `[""]` for `""`); every
call site filters the pieces by a positive length bound, so the empty
pieces are dropped either way and are omitted here. -/
def wsSplit (s : JSStr) : List JSStr := wsSplitAux [] s

/-! ## Keyword search tokenization (`MemoryDatabase.keywordSearch`)

The FTS4 engine is external: it is modelled as an oracle from the built
match expression to the scored rows (`none` models a thrown match-syntax
error, caught and turned into zero results). -/

/-- One token of the FTS match expression: quoted, inner quotes stripped
(`` `"${t.replace(/"/g, "")}"` ``). -/
def quoteToken (t : JSStr) : JSStr :=
  '\"' :: (t.filter (fun c => c ≠ '\"')) ++ ['\"']

/-- The match expression built by `keywordSearch`: lower-case, split on
whitespace, keep tokens of length > 1, quote, join with spaces. -/
def ftsMatchExpr (query : JSStr) : JSStr :=
  List.intercalate [' ']
    (((wsSplit (jsToLower query)).filter (fun t => 1 < t.length)).map quoteToken)

/-- `MemoryDatabase.keywordSearch query limit`, with the FTS engine as an
oracle: an empty match expression (falsy `tokens`) returns `[]` without
querying; an oracle error (`none`, a thrown FTS syntax error) also
returns `[]`. -/
def keywordSearch (query : JSStr)
    (ftsOracle : JSStr → Option (List ScoredId)) : List ScoredId :=
  if ftsMatchExpr query = [] then []
  else
    match ftsOracle (ftsMatchExpr query) with
    | some rows => rows
    | none => []

/-! ## Capture deduplication (`MemoryCapture.storeWithDeduplication`) -/

/-- `ExtractedMemory`. -/
structure ExtractedMemory where
  content : String
  category : String
  confidence : ℚ
  tags : List String
deriving DecidableEq, Repr

/-- The deduplication scan: walk the stored embeddings in order; a
dimension mismatch (thrown `cosineSimilarity`) is skipped; the first
embedding whose `[0,1]`-remapped similarity reaches the threshold stops
the scan with `true`. -/
def isDuplicate (embedding : List ℚ) (threshold : ℚ) :
    List (String × List ℚ) → Bool
  | [] => false
  | e :: rest =>
    match cosineSimilarity embedding e.2 with
    | some sim =>
      if threshold ≤ (sim + 1) / 2 then true
      else isDuplicate embedding threshold rest
    | none => isDuplicate embedding threshold rest

/-- `MemoryCapture.storeWithDeduplication`: `embedResult` is the outcome of
`embedder.embed(memory.content)` (`none` when it throws).  An embedding
failure stores without deduplication; a detected duplicate returns no id
and leaves the store untouched; otherwise the record is stored with
provenance `auto_capture`. -/
def storeWithDeduplication (memory : ExtractedMemory) (sessionId : String)
    (embedResult : Option (List ℚ)) (modelName : String) (threshold : ℚ)
    (newId : String) (now : ℤ) (s : DbState) : Option String × DbState :=
  match embedResult with
  | none =>
    let (id, s') := createMemory
      { content := memory.content
        category := some memory.category
        embedding := none
        embeddingModel := none
        sourceType := some "auto_capture"
        sourceSession := some sessionId
        confidence := some memory.confidence
        tags := some memory.tags } newId now s
    (some id, s')
  | some embedding =>
    if isDuplicate embedding threshold (getAllEmbeddings s) then (none, s)
    else
      let (id, s') := createMemory
        { content := memory.content
          category := some memory.category
          embedding := some embedding
          embeddingModel := some modelName
          sourceType := some "auto_capture"
          sourceSession := some sessionId
          confidence := some memory.confidence
          tags := some memory.tags } newId now s
      (some id, s')

/-! ## Deterministic hash embedding (`SimpleHashEmbeddingProvider.hashToVector`)

SHA-256 is external: a hash is modelled as the three pieces of the digest
the code reads — the position word (`readUInt32LE(0)`), the value word
(`readInt32LE(4)`), and the digest bytes (indexed mod 32).  The square
root taken by the final L2-normalization is irrational in general, so the
magnitude is passed as an explicit parameter constrained by
`mag² = Σ vᵢ²` in the theorems. -/

/-- The parts of a SHA-256 digest read by `hashToVector`: the position word
(`readUInt32LE(0)`), the value word (`readInt32LE(4)`), and the digest
bytes (indexed mod 32). -/
structure HashOut where
  posWord : ℕ
  valWord : ℤ
  byteAt : ℕ → ℕ

/-- `vec[pos] += x` on a vector modelled as a function from index to value. -/
def bump (v : ℕ → ℚ) (pos : ℕ) (x : ℚ) : ℕ → ℚ :=
  fun i => if i = pos then v i + x else v i

/-- The feature-accumulation loop: each feature's hash picks a bucket
(`posWord % dimensions`) and a signed magnitude
(`valWord / 2147483647 * 0.1`). -/
def accumFeatures (h : JSStr → HashOut) (dims : ℕ) :
    List JSStr → (ℕ → ℚ) → (ℕ → ℚ)
  | [], v => v
  | f :: fs, v =>
    accumFeatures h dims fs
      (bump v ((h f).posWord % dims)
        (((h f).valWord : ℚ) / 2147483647 * (1/10)))

/-- The character trigrams of the normalized text
(`normalized.substring(i, i + 3)` for `0 ≤ i ≤ length - 3`). -/
def trigramsOf (chars : JSStr) : List JSStr :=
  (List.range (chars.length - 2)).map (fun i => (chars.drop i).take 3)

/-- The whitespace-delimited words of the normalized text
(`normalized.split(/\s+/).filter(w => w.length > 0)`). -/
def wordsOf (normalized : JSStr) : List JSStr :=
  (wsSplit normalized).filter (fun w => 0 < w.length)

/-- `hashToVector` up to (but excluding) the final L2-normalization:
trigram and word features accumulated into buckets, plus the small
global-hash perturbation `(globalHash[i % 32] - 128) / 2560` on every
coordinate. -/
def hashToVectorCore (h : JSStr → HashOut) (dims : ℕ) (text : JSStr) :
    List ℚ :=
  let normalized := jsTrim (jsToLower text)
  let features := trigramsOf normalized ++ wordsOf normalized
  let v0 := accumFeatures h dims features (fun _ => 0)
  let g := h normalized
  (List.range dims).map
    (fun i => v0 i + (((g.byteAt (i % 32) : ℤ) : ℚ) - 128) / 2560)

/-- The final normalization step: divide by the magnitude when it is
positive, else leave the vector unchanged. -/
def normalizeWith (mag : ℚ) (v : List ℚ) : List ℚ :=
  if 0 < mag then v.map (fun x => x / mag) else v

/-- `SimpleHashEmbeddingProvider.hashToVector`: empty normalized text
returns the zero vector before any hashing; otherwise accumulate features
and L2-normalize.  `mag` stands for `Math.sqrt(magnitude)`, which is
irrational in general; the theorems constrain it by
`mag² = Σᵢ vᵢ²` over the accumulated vector. -/
def hashToVector (h : JSStr → HashOut) (dims : ℕ) (text : JSStr)
    (mag : ℚ) : List ℚ :=
  if (jsTrim (jsToLower text)).length = 0 then List.replicate dims 0
  else normalizeWith mag (hashToVectorCore h dims text)

/-! ## Helper lemmas -/

theorem dot_self_nonneg (v : List ℚ) : 0 ≤ dot v v := by
  induction v with
  | nil => simp [dot]
  | cons a as_ ih =>
    simp only [dot]
    nlinarith [sq_nonneg a]

/-- The quadratic form underlying Cauchy–Schwarz:
`0 ≤ x²·⟨b,b⟩ - 2xy·⟨a,b⟩ + y²·⟨a,a⟩` (it is `⟨xb - ya, xb - ya⟩`). -/
theorem cs_aux (x y : ℚ) : ∀ (as_ bs : List ℚ),
    0 ≤ x ^ 2 * dot bs bs - 2 * x * y * dot as_ bs + y ^ 2 * dot as_ as_
  | [], [] => by simp [dot]
  | [], b :: bs => by
    simp only [dot]
    nlinarith [dot_self_nonneg bs, sq_nonneg x, sq_nonneg (x * b)]
  | a :: as_, [] => by
    simp only [dot]
    nlinarith [dot_self_nonneg as_, sq_nonneg y, sq_nonneg (y * a)]
  | a :: as_, b :: bs => by
    have ih := cs_aux x y as_ bs
    simp only [dot]
    nlinarith [sq_nonneg (x * b - y * a)]

/-- Cauchy–Schwarz for unit vectors: the dot product lies in `[-1, 1]`. -/
theorem dot_unit_bounds {a b : List ℚ} (ha : dot a a = 1) (hb : dot b b = 1) :
    -1 ≤ dot a b ∧ dot a b ≤ 1 := by
  have h := cs_aux 1 (dot a b) a b
  rw [ha, hb] at h
  have hsq : (dot a b) ^ 2 ≤ 1 := by nlinarith
  have := (sq_le_one_iff_abs_le_one (dot a b)).mp hsq
  exact abs_le.mp this

theorem le_listMax : ∀ {l : List ℚ}, ∀ x ∈ l, x ≤ listMax l
  | [] => by simp
  | [x'] => by simp [listMax]
  | x' :: y :: xs => by
    intro x hx
    rcases List.mem_cons.mp hx with rfl | hx
    · simp [listMax]
    · exact le_trans (le_listMax x hx) (by simp [listMax])

theorem listMax_mem : ∀ {l : List ℚ}, l ≠ [] → listMax l ∈ l
  | [] => by intro h; exact absurd rfl h
  | [x] => by simp [listMax]
  | x :: y :: xs => by
    intro _
    rcases le_total x (listMax (y :: xs)) with h | h
    · have hmax : listMax (x :: y :: xs) = listMax (y :: xs) := by
        simp [listMax, max_eq_right h]
      rw [hmax]
      exact List.mem_cons_of_mem x (listMax_mem (by simp))
    · have hmax : listMax (x :: y :: xs) = x := by
        simp [listMax, max_eq_left h]
      rw [hmax]
      exact List.mem_cons_self x _

/-! ### Association-list (`Map`) lemmas -/

theorem mapSet_cons (p : String × MergeScores) (rest : List (String × MergeScores))
    (k : String) (v : MergeScores) :
    mapSet (p :: rest) k v =
      if p.1 = k then (k, v) :: rest else p :: mapSet rest k v := by
  cases p
  rfl

theorem mapGet_cons (p : String × MergeScores) (rest : List (String × MergeScores))
    (k : String) :
    mapGet (p :: rest) k = if p.1 = k then some p.2 else mapGet rest k := by
  cases p
  rfl

theorem mapGet_mapSet_self (l : List (String × MergeScores)) (k : String)
    (v : MergeScores) : mapGet (mapSet l k v) k = some v := by
  induction l with
  | nil => simp [mapSet, mapGet]
  | cons p rest ih =>
    rw [mapSet_cons]
    by_cases h : p.1 = k
    · rw [if_pos h, mapGet_cons]
      simp
    · rw [if_neg h, mapGet_cons, if_neg h]
      exact ih

theorem mapGet_mapSet_ne (l : List (String × MergeScores)) (k k' : String)
    (v : MergeScores) (hne : k ≠ k') :
    mapGet (mapSet l k v) k' = mapGet l k' := by
  induction l with
  | nil => simp [mapSet, mapGet, hne]
  | cons p rest ih =>
    rw [mapSet_cons]
    by_cases h : p.1 = k
    · rw [if_pos h, mapGet_cons, mapGet_cons]
      simp only
      rw [if_neg hne, if_neg (fun hc => hne (h.symm.trans hc))]
    · rw [if_neg h, mapGet_cons, mapGet_cons]
      by_cases h' : p.1 = k'
      · rw [if_pos h', if_pos h']
      · rw [if_neg h', if_neg h']
        exact ih

theorem mem_mapSet (l : List (String × MergeScores)) (k k' : String)
    (v v' : MergeScores) (h : (k', v') ∈ mapSet l k v) :
    (k', v') ∈ l ∨ v' = v := by
  induction l with
  | nil =>
    simp only [mapSet, List.mem_singleton] at h
    exact Or.inr (congrArg Prod.snd h)
  | cons p rest ih =>
    rw [mapSet_cons] at h
    by_cases hp : p.1 = k
    · rw [if_pos hp] at h
      rcases List.mem_cons.mp h with h | h
      · exact Or.inr (congrArg Prod.snd h)
      · exact Or.inl (List.mem_cons_of_mem p h)
    · rw [if_neg hp] at h
      rcases List.mem_cons.mp h with h | h
      · exact Or.inl (h ▸ List.mem_cons_self p rest)
      · rcases ih h with h | h
        · exact Or.inl (List.mem_cons_of_mem p h)
        · exact Or.inr h

theorem mapGet_mem (l : List (String × MergeScores)) (k : String)
    (v : MergeScores) (h : mapGet l k = some v) : (k, v) ∈ l := by
  induction l with
  | nil => simp [mapGet] at h
  | cons p rest ih =>
    rw [mapGet_cons] at h
    by_cases hp : p.1 = k
    · rw [if_pos hp] at h
      injection h with h
      exact List.mem_cons.mpr (Or.inl (Prod.ext hp h).symm)
    · rw [if_neg hp] at h
      exact List.mem_cons_of_mem p (ih h)

/-! ### Deduplication-scan lemmas -/

theorem isDuplicate_append (v : List ℚ) (thr : ℚ) (l1 l2 : List (String × List ℚ)) :
    isDuplicate v thr (l1 ++ l2) = (isDuplicate v thr l1 || isDuplicate v thr l2) := by
  induction l1 with
  | nil => simp [isDuplicate]
  | cons e rest ih =>
    simp only [List.cons_append, isDuplicate]
    cases hcs : cosineSimilarity v e.2 with
    | none => exact ih
    | some sim =>
      by_cases h : thr ≤ (sim + 1) / 2
      · simp [h]
      · simp [h, ih]

theorem isDuplicate_of_trigger (v : List ℚ) (thr : ℚ)
    (l : List (String × List ℚ)) (e : String × List ℚ) (hmem : e ∈ l)
    (hlen : e.2.length = v.length) (hthr : thr ≤ (dot v e.2 + 1) / 2) :
    isDuplicate v thr l = true := by
  induction l with
  | nil => cases hmem
  | cons e' rest ih =>
    simp only [isDuplicate]
    rcases List.mem_cons.mp hmem with rfl | hmem
    · rw [cosineSimilarity, if_pos hlen.symm]
      show (if thr ≤ (dot v e.2 + 1) / 2 then true else isDuplicate v thr rest) = true
      rw [if_pos hthr]
    · cases hcs : cosineSimilarity v e'.2 with
      | none => exact ih hmem
      | some sim =>
        show (if thr ≤ (sim + 1) / 2 then true else isDuplicate v thr rest) = true
        by_cases h : thr ≤ (sim + 1) / 2
        · rw [if_pos h]
        · rw [if_neg h]
          exact ih hmem

theorem isDuplicate_false_of_mismatch (v : List ℚ) (thr : ℚ)
    (l : List (String × List ℚ)) (h : ∀ e ∈ l, e.2.length ≠ v.length) :
    isDuplicate v thr l = false := by
  induction l with
  | nil => rfl
  | cons e rest ih =>
    simp only [isDuplicate]
    rw [cosineSimilarity, if_neg (fun hc => h e (List.mem_cons_self e rest) hc.symm)]
    exact ih (fun e' he' => h e' (List.mem_cons_of_mem e he'))

/-- Every result of `vectorSearch` has a positive score (the
`filter(r => r.score > 0)` step). -/
theorem vectorSearch_pos (q : List ℚ) (embs : List (String × List ℚ))
    (limit : ℕ) : ∀ r ∈ vectorSearch q embs limit, 0 < r.score := by
  by_cases hne : embs = []
  · subst hne
    simp [vectorSearch]
  · intro r hr
    rw [vectorSearch, if_neg hne] at hr
    have := List.mem_filter.mp ((mem_sortDesc _ _ r).mp (List.mem_of_mem_take hr))
    exact of_decide_eq_true this.2

/-- Every result of `vectorSearch` is the remapped cosine similarity
`(sim+1)/2` of a stored pair whose dimension matches the query's. -/
theorem vectorSearch_mem_char (q : List ℚ) (embs : List (String × List ℚ))
    (limit : ℕ) : ∀ r ∈ vectorSearch q embs limit,
      ∃ p ∈ embs, r.id = p.1 ∧ p.2.length = q.length ∧
        r.score = (dot q p.2 + 1) / 2 := by
  by_cases hne : embs = []
  · subst hne
    simp [vectorSearch]
  · intro r hr
    rw [vectorSearch, if_neg hne] at hr
    have hpos : 0 < r.score := by
      have := List.mem_filter.mp ((mem_sortDesc _ _ r).mp (List.mem_of_mem_take hr))
      exact of_decide_eq_true this.2
    have hrf := List.mem_filter.mp
      ((mem_sortDesc _ _ r).mp (List.mem_of_mem_take hr))
    obtain ⟨p, hp, hpe⟩ := List.mem_map.mp hrf.1
    refine ⟨p, hp, ?_⟩
    rw [vectorScoreOf] at hpe
    cases hcs : cosineSimilarity q p.2 with
    | none =>
      rw [hcs] at hpe
      rw [← hpe] at hpos
      exact absurd hpos (by norm_num)
    | some sim =>
      rw [hcs] at hpe
      rw [cosineSimilarity] at hcs
      by_cases hlen : q.length = p.2.length
      · rw [if_pos hlen] at hcs
        injection hcs with hcs
        exact ⟨by rw [← hpe], hlen.symm, by rw [← hpe, ← hcs]⟩
      · rw [if_neg hlen] at hcs
        cases hcs

/-! ## Claim theorems -/

/-- **C4.** For every query vector, vector search computes the cosine
similarity against the stored `(id, vector)` pairs, remaps each similarity
`sim` to `(sim+1)/2`, discards non-positive scores, sorts descending and
truncates to the candidate limit: every returned result has positive
score, the result list is sorted by score descending, its length is at
most the limit, every result's score is the remapped cosine similarity of
a stored pair of matching dimension, and every stored pair of matching
dimension with positive remapped score appears whenever the limit was not
exhausted. -/
theorem C4_vectorSearch_spec (q : List ℚ) (embs : List (String × List ℚ))
    (limit : ℕ) :
    (∀ r ∈ vectorSearch q embs limit, 0 < r.score) ∧
    (vectorSearch q embs limit).Pairwise (fun a b => b.score ≤ a.score) ∧
    (vectorSearch q embs limit).length ≤ limit ∧
    (∀ r ∈ vectorSearch q embs limit,
      ∃ p ∈ embs, r.id = p.1 ∧ p.2.length = q.length ∧
        r.score = (dot q p.2 + 1) / 2) ∧
    (∀ p ∈ embs, p.2.length = q.length → 0 < (dot q p.2 + 1) / 2 →
      (vectorSearch q embs limit).length < limit →
      (⟨p.1, (dot q p.2 + 1) / 2⟩ : ScoredId) ∈ vectorSearch q embs limit) := by
  by_cases hne : embs = []
  · subst hne
    simp [vectorSearch]
  · have hvs : vectorSearch q embs limit =
        (sortDesc (·.score)
          ((embs.map (vectorScoreOf q)).filter (fun r => 0 < r.score))).take limit := by
      rw [vectorSearch, if_neg hne]
    set L := sortDesc (·.score)
      ((embs.map (vectorScoreOf q)).filter (fun r => 0 < r.score)) with hL
    have hmemL : ∀ r ∈ L,
        r ∈ (embs.map (vectorScoreOf q)).filter (fun r => 0 < r.score) :=
      fun r hr => (mem_sortDesc _ _ r).mp hr
    refine ⟨vectorSearch_pos q embs limit, ?_, ?_,
      vectorSearch_mem_char q embs limit, ?_⟩
    · rw [hvs]
      exact List.Pairwise.sublist (List.take_sublist _ _) (sortDesc_sorted _ _)
    · rw [hvs]
      exact List.length_take_le _ _
    · intro p hp hlen hscore hlt
      rw [hvs] at hlt ⊢
      have hlenL : L.length < limit := by
        by_contra hc
        push_neg at hc
        rw [List.length_take, min_eq_left hc] at hlt
        exact lt_irrefl _ hlt
      rw [List.take_of_length_le (le_of_lt hlenL)]
      apply (mem_sortDesc _ _ _).mpr
      apply List.mem_filter.mpr
      constructor
      · have : vectorScoreOf q p = ⟨p.1, (dot q p.2 + 1) / 2⟩ := by
          rw [vectorScoreOf, cosineSimilarity, if_pos hlen.symm]
        exact this ▸ List.mem_map_of_mem (vectorScoreOf q) hp
      · exact decide_eq_true hscore

/-- Witness for C4 at a concrete input: the one stored unit vector `[1]`
is returned with remapped score `(1+1)/2 = 1`, which is positive. -/
theorem C4_witness : (0 : ℚ) < 1 := by
  have h := (C4_vectorSearch_spec [1] [("a", [1])] 6).1
  have hmem : (⟨"a", 1⟩ : ScoredId) ∈ vectorSearch [1] [("a", [1])] 6 := by
    have := (C4_vectorSearch_spec [1] [("a", [1])] 6).2.2.2.2 ("a", [1])
      (List.mem_singleton.mpr rfl) rfl (by norm_num [dot])
    norm_num [dot] at this
    have hlen : (vectorSearch [1] [("a", [1])] 6).length < 6 := by
      norm_num [vectorSearch, vectorScoreOf, cosineSimilarity, dot, sortDesc,
        insertDesc]
    exact this hlen
  exact h ⟨"a", 1⟩ hmem

/-- **C9.** A stored embedding whose length differs from the query
vector's length never surfaces a dimension-mismatch error: in vector
search the mismatched record is scored `0` (the caught exception branch)
and its entry is excluded from the result set; in capture deduplication,
when every existing embedding mismatches, all comparisons are skipped and
the candidate is stored (an id is returned and the store grows by one
record). -/
theorem C9_mismatch_handling (q : List ℚ) (embs : List (String × List ℚ))
    (limit : ℕ) (v : List ℚ) (thr : ℚ) (memx : ExtractedMemory)
    (sess model newId : String) (now : ℤ) (s : DbState) :
    (∀ p ∈ embs, p.2.length ≠ q.length →
      vectorScoreOf q p = ⟨p.1, 0⟩ ∧
      (⟨p.1, (0 : ℚ)⟩ : ScoredId) ∉ vectorSearch q embs limit) ∧
    ((∀ e ∈ getAllEmbeddings s, e.2.length ≠ v.length) →
      (storeWithDeduplication memx sess (some v) model thr newId now s).1
          = some newId ∧
      (storeWithDeduplication memx sess (some v) model thr newId now
          s).2.memories.length = s.memories.length + 1) := by
  constructor
  · intro p hp hlen
    refine ⟨?_, ?_⟩
    · rw [vectorScoreOf, cosineSimilarity, if_neg (fun hc => hlen hc.symm)]
    · intro hmem
      have := vectorSearch_pos q embs limit _ hmem
      exact absurd this (by norm_num)
  · intro hmis
    have hdup : isDuplicate v thr (getAllEmbeddings s) = false :=
      isDuplicate_false_of_mismatch v thr _ hmis
    rw [storeWithDeduplication, hdup]
    simp [createMemory]

/-- A sample stored record with an embedding of dimension 2,
for use in concrete instantiations. -/
def sampleRecordDim2 : MemRecord :=
  { id := "a"
    category := "fact"
    content := "x"
    embedding := some [1, 0]
    embeddingModel := none
    embeddingDims := some 2
    sourceType := "manual"
    sourceSession := none
    confidence := 1
    tags := []
    createdAt := 0
    updatedAt := 0
    lastAccessedAt := 0
    accessCount := 0 }

/-- Witness for C9 at a concrete input: one stored embedding of dimension
2 against a query of dimension 1 is scored `0` and excluded, and a
capture candidate of dimension 1 against that store is stored,
returning the fresh id. -/
theorem C9_witness :
    vectorScoreOf [1] ("a", [1, 0]) = ⟨"a", 0⟩ ∧
    (storeWithDeduplication ⟨"c", "fact", 1, []⟩ "sess" (some [1]) "m" (9/10)
      "new" 0 ⟨[sampleRecordDim2], false⟩).1 = some "new" := by
  have h := C9_mismatch_handling [1] [("a", [1, 0])] 6 [1] (9/10)
    ⟨"c", "fact", 1, []⟩ "sess" "m" "new" 0 ⟨[sampleRecordDim2], false⟩
  refine ⟨(h.1 ("a", [1, 0]) (List.mem_singleton.mpr rfl) (by norm_num)).1, ?_⟩
  exact (h.2 (by simp [getAllEmbeddings, sampleRecordDim2])).1

/-- **C8.** For every non-empty keyword result set with positive raw
scores (as the FTS scorer produces for matched rows), every raw score is
divided by the maximum raw score of the set, so every normalized score is
at most 1 and the top hit's normalized score is exactly 1. -/
theorem C8_keyword_tophit_one (raw : List ScoredId) (hne : raw ≠ [])
    (hpos : ∀ r ∈ raw, 0 < r.score) :
    keywordSearchInternal raw =
      raw.map (fun r => ⟨r.id, r.score / listMax (raw.map (fun r => r.score))⟩) ∧
    (∀ r ∈ keywordSearchInternal raw, r.score ≤ 1) ∧
    (∃ r ∈ keywordSearchInternal raw, r.score = 1) := by
  have hmapne : raw.map (fun r => r.score) ≠ [] := by
    simpa using hne
  have hmaxmem : listMax (raw.map (fun r => r.score)) ∈ raw.map (fun r => r.score) :=
    listMax_mem hmapne
  obtain ⟨rm, hrm, hrmeq⟩ := List.mem_map.mp hmaxmem
  have hmaxpos : 0 < listMax (raw.map (fun r => r.score)) := hrmeq ▸ hpos rm hrm
  have heq : keywordSearchInternal raw =
      raw.map (fun r => ⟨r.id, r.score / listMax (raw.map (fun r => r.score))⟩) := by
    rw [keywordSearchInternal, if_neg hne]
    simp only [if_pos hmaxpos]
  refine ⟨heq, ?_, ?_⟩
  · intro r hr
    rw [heq] at hr
    obtain ⟨r0, hr0, hr0eq⟩ := List.mem_map.mp hr
    have hle : r0.score ≤ listMax (raw.map (fun r => r.score)) :=
      le_listMax _ (List.mem_map_of_mem _ hr0)
    rw [← hr0eq]
    exact (div_le_one hmaxpos).mpr hle
  · refine ⟨⟨rm.id, rm.score / listMax (raw.map (fun r => r.score))⟩, ?_, ?_⟩
    · rw [heq]
      exact List.mem_map_of_mem _ hrm
    · show rm.score / listMax (raw.map (fun r => r.score)) = 1
      rw [hrmeq]
      exact div_self (ne_of_gt hmaxpos)

/-- Witness for C8 at a concrete input: from raw scores `1/2` and `1/4`,
a normalized score of exactly `1` exists in the result. -/
theorem C8_witness :
    ∃ r ∈ keywordSearchInternal [⟨"a", 1/2⟩, ⟨"b", 1/4⟩], r.score = 1 := by
  refine (C8_keyword_tophit_one [⟨"a", 1/2⟩, ⟨"b", 1/4⟩] (by simp) ?_).2.2
  intro r hr
  rcases List.mem_cons.mp hr with rfl | hr
  · norm_num
  · rcases List.mem_cons.mp hr with rfl | hr
    · norm_num
    · cases hr

/-- **C6.** Keyword search lower-cases the query, splits it on whitespace
and discards tokens of length ≤ 1 (the definition of `ftsMatchExpr`); for
every query all of whose whitespace-delimited tokens have length ≤ 1 —
including single-character queries and the empty string — the result set
is empty, whatever the FTS index holds. -/
theorem C6_trivial_query_empty (query : JSStr)
    (oracle : JSStr → Option (List ScoredId))
    (h : ∀ t ∈ wsSplit (jsToLower query), t.length ≤ 1) :
    keywordSearch query oracle = [] := by
  have hfilter : (wsSplit (jsToLower query)).filter (fun t => 1 < t.length) = [] :=
    List.filter_eq_nil_iff.mpr (fun t ht => by
      simpa using Nat.not_lt.mpr (h t ht))
  have hexpr : ftsMatchExpr query = [] := by
    rw [ftsMatchExpr, hfilter]
    simp [List.intercalate]
  rw [keywordSearch, hexpr]
  simp

/-- Witness for C6 at concrete inputs: the query `"a b"` (and the empty
query) return zero results even against an oracle that matches
everything. -/
theorem C6_witness :
    keywordSearch ['a', ' ', 'b'] (fun _ => some [⟨"z", 1⟩]) = [] ∧
    keywordSearch [] (fun _ => some [⟨"z", 1⟩]) = [] := by
  constructor
  · exact C6_trivial_query_empty ['a', ' ', 'b'] _ (by decide)
  · exact C6_trivial_query_empty [] _ (by decide)

/-- **C10.** `getMemory` on an id absent from the store returns `null` and
leaves the state entirely unchanged: the store is not marked dirty and
every record (in particular its `accessCount` and `lastAccessedAt`) is
exactly as before. -/
theorem C10_getMemory_missing_id (id : String) (now : ℤ) (s : DbState)
    (habs : ∀ r ∈ s.memories, r.id ≠ id) :
    getMemory id now s = (none, s) ∧
    (getMemory id now s).2.dirty = s.dirty ∧
    (getMemory id now s).2.memories = s.memories := by
  have hany : ¬(s.memories.any (fun r => r.id = id) = true) := by
    simp only [List.any_eq_true, not_exists]
    intro r
    simp only [not_and, decide_eq_true_eq]
    intro hr
    exact habs r hr
  have hg : getMemory id now s = (none, s) := by
    rw [getMemory, if_neg hany]
  exact ⟨hg, by rw [hg], by rw [hg]⟩

/-- Witness for C10 at a concrete input: fetching a missing id from a
one-record store returns `null` and the state is untouched. -/
theorem C10_witness :
    getMemory "zzz" 5 ⟨[sampleRecordDim2], false⟩
      = (none, ⟨[sampleRecordDim2], false⟩) := by
  refine (C10_getMemory_missing_id "zzz" 5 ⟨[sampleRecordDim2], false⟩ ?_).1
  intro r hr
  rcases List.mem_singleton.mp hr with rfl
  decide

/-- **C3 counterexample.** On the empty store — where the id `"x"` is
certainly missing — `updateMemory` with a content field set returns
`true`, not `false` as the claim states. -/
theorem C3_counterexample :
    (∀ r ∈ (⟨[], false⟩ : DbState).memories, r.id ≠ "x") ∧
    (updateMemory "x" ⟨some "c", none, none, none, none, none⟩ 0
      ⟨[], false⟩).1 = true := by
  exact ⟨fun r hr => absurd hr (List.not_mem_nil r), rfl⟩

/-- **C3 (amended).** For every id not present in the store: `get` returns
`null` and `delete` returns `false`, each leaving the state unchanged, and
neither throws; `update` returns `false` only when the partial update sets
no fields — when at least one field is set it returns `true` even though
zero rows are affected (the row list is unchanged). -/
theorem C3_missing_id_behaviour (id : String) (now : ℤ)
    (input : UpdateMemoryInput) (s : DbState)
    (habs : ∀ r ∈ s.memories, r.id ≠ id) :
    getMemory id now s = (none, s) ∧
    deleteMemory id s = (false, s) ∧
    (updateHasFields input = false → updateMemory id input now s = (false, s)) ∧
    (updateHasFields input = true →
      (updateMemory id input now s).1 = true ∧
      (updateMemory id input now s).2.memories = s.memories) := by
  have hany : ¬(s.memories.any (fun r => r.id = id) = true) := by
    simp only [List.any_eq_true, not_exists]
    intro r
    simp only [not_and, decide_eq_true_eq]
    intro hr
    exact habs r hr
  refine ⟨?_, ?_, ?_, ?_⟩
  · rw [getMemory, if_neg hany]
  · rw [deleteMemory, if_neg hany]
  · intro hno
    rw [updateMemory, if_neg (by simp [hno])]
  · intro hyes
    rw [updateMemory, if_pos hyes]
    refine ⟨rfl, ?_⟩
    show s.memories.map (fun r => if r.id = id then applyUpdate input now r else r)
      = s.memories
    have : s.memories.map (fun r => if r.id = id then applyUpdate input now r else r)
        = s.memories.map (fun r => r) :=
      List.map_congr_left (fun r hr => if_neg (habs r hr))
    rw [this]
    simp

/-- Witness for the amended C3 at concrete inputs: on the empty store,
`get` gives `null`, `delete` gives `false`, and a content update gives
`true` with no rows changed. -/
theorem C3_witness :
    getMemory "x" 0 ⟨[], false⟩ = (none, ⟨[], false⟩) ∧
    deleteMemory "x" ⟨[], false⟩ = (false, ⟨[], false⟩) ∧
    (updateMemory "x" ⟨some "c", none, none, none, none, none⟩ 0
      ⟨[], false⟩).1 = true := by
  have h := C3_missing_id_behaviour "x" 0 ⟨some "c", none, none, none, none, none⟩
    ⟨[], false⟩ (fun r hr => absurd hr (List.not_mem_nil r))
  exact ⟨h.1, h.2.1, (h.2.2.2 rfl).1⟩

/-! ### Merge-map characterization lemmas -/

theorem addVectorResults_cons (r : ScoredId) (rest : List ScoredId) :
    addVectorResults (r :: rest)
      = rest.foldl (fun acc r => mapSet acc r.id ⟨r.score, 0⟩)
          (mapSet [] r.id ⟨r.score, 0⟩) := rfl

theorem foldlV_get_notmem (vR : List ScoredId)
    (acc : List (String × MergeScores)) (id : String)
    (hid : id ∉ vR.map (fun r => r.id)) :
    mapGet (vR.foldl (fun acc r => mapSet acc r.id ⟨r.score, 0⟩) acc) id
      = mapGet acc id := by
  induction vR generalizing acc with
  | nil => rfl
  | cons r rest ih =>
    simp only [List.map_cons, List.mem_cons, not_or] at hid
    simp only [List.foldl_cons]
    rw [ih _ hid.2]
    exact mapGet_mapSet_ne acc r.id id ⟨r.score, 0⟩ (fun h => hid.1 h.symm)

theorem foldlV_get_mem (vR : List ScoredId)
    (acc : List (String × MergeScores)) (r : ScoredId)
    (hN : (vR.map (fun r => r.id)).Nodup) (hr : r ∈ vR) :
    mapGet (vR.foldl (fun acc r => mapSet acc r.id ⟨r.score, 0⟩) acc) r.id
      = some ⟨r.score, 0⟩ := by
  induction vR generalizing acc with
  | nil => cases hr
  | cons r' rest ih =>
    simp only [List.map_cons, List.nodup_cons] at hN
    simp only [List.foldl_cons]
    rcases List.mem_cons.mp hr with rfl | hr
    · rw [foldlV_get_notmem rest _ r.id hN.1]
      exact mapGet_mapSet_self acc r.id ⟨r.score, 0⟩
    · exact ih _ hN.2 hr

theorem addKeywordResults_cons (r : ScoredId) (rest : List ScoredId)
    (acc : List (String × MergeScores)) :
    addKeywordResults (r :: rest) acc = addKeywordResults rest
      (match mapGet acc r.id with
        | some s => mapSet acc r.id ⟨s.vectorScore, r.score⟩
        | none => mapSet acc r.id ⟨0, r.score⟩) := rfl

theorem addKeyword_get_notmem (kR : List ScoredId)
    (acc : List (String × MergeScores)) (id : String)
    (hid : id ∉ kR.map (fun r => r.id)) :
    mapGet (addKeywordResults kR acc) id = mapGet acc id := by
  induction kR generalizing acc with
  | nil => rfl
  | cons r rest ih =>
    simp only [List.map_cons, List.mem_cons, not_or] at hid
    rw [addKeywordResults_cons, ih _ hid.2]
    cases mapGet acc r.id with
    | some s => exact mapGet_mapSet_ne acc r.id id _ (fun h => hid.1 h.symm)
    | none => exact mapGet_mapSet_ne acc r.id id _ (fun h => hid.1 h.symm)

theorem addKeyword_get_mem (kR : List ScoredId)
    (acc : List (String × MergeScores)) (r : ScoredId)
    (hN : (kR.map (fun r => r.id)).Nodup) (hr : r ∈ kR) :
    mapGet (addKeywordResults kR acc) r.id
      = some ⟨(mapGet acc r.id).elim 0 (fun s => s.vectorScore), r.score⟩ := by
  induction kR generalizing acc with
  | nil => cases hr
  | cons r' rest ih =>
    simp only [List.map_cons, List.nodup_cons] at hN
    rw [addKeywordResults_cons]
    rcases List.mem_cons.mp hr with rfl | hr
    · rw [addKeyword_get_notmem rest _ r.id hN.1]
      cases hget : mapGet acc r.id with
      | some s =>
        rw [mapGet_mapSet_self]
        simp [Option.elim]
      | none =>
        rw [mapGet_mapSet_self]
        simp [Option.elim]
    · have hne : r'.id ≠ r.id :=
        fun h => hN.1 (h ▸ List.mem_map_of_mem (fun r => r.id) hr)
      have hpres : mapGet
          (match mapGet acc r'.id with
            | some s => mapSet acc r'.id ⟨s.vectorScore, r'.score⟩
            | none => mapSet acc r'.id ⟨0, r'.score⟩) r.id = mapGet acc r.id := by
        cases mapGet acc r'.id with
        | some s => exact mapGet_mapSet_ne acc r'.id r.id _ hne
        | none => exact mapGet_mapSet_ne acc r'.id r.id _ hne
      rw [ih _ hN.2 hr, hpres]

/-- **C1 counterexample.** A record present only in the vector result set
(score `1/2`) receives final score `vectorWeight × 1/2 = 7/20` under the
default weights — it does not keep its source score `1/2` as the claim
states. -/
theorem C1_counterexample :
    mergeResults [⟨"a", 1/2⟩] [] DEFAULT_OPTIONS = [⟨"a", 7/20, .vector⟩] ∧
    (7/20 : ℚ) ≠ 1/2 := by
  constructor
  · norm_num [mergeResults, addKeywordResults, addVectorResults, mapSet, mapGet,
      mergeEntry, sortDesc, insertDesc, DEFAULT_OPTIONS]
  · norm_num

/-- **C1 (amended).** For result sets with positive scores and distinct
ids (as the two searches produce): an id present in both sets receives
`matchType = hybrid` and score `vectorWeight × vectorScore +
keywordWeight × keywordScore`; an id present in only one set receives
that source's **weight times its score** (not the raw source score) with
`matchType` `vector` or `keyword` respectively. -/
theorem C1_merge_by_id (vR kR : List ScoredId) (opts : SearchOptions)
    (hvN : (vR.map (fun r => r.id)).Nodup) (hkN : (kR.map (fun r => r.id)).Nodup)
    (hv : ∀ r ∈ vR, 0 < r.score) (hk : ∀ r ∈ kR, 0 < r.score) :
    (∀ rv ∈ vR, ∀ rk ∈ kR, rv.id = rk.id →
      (⟨rv.id, opts.vectorWeight * rv.score + opts.keywordWeight * rk.score,
        .hybrid⟩ : MergedScored) ∈ mergeResults vR kR opts) ∧
    (∀ rv ∈ vR, rv.id ∉ kR.map (fun r => r.id) →
      (⟨rv.id, opts.vectorWeight * rv.score, .vector⟩ : MergedScored)
        ∈ mergeResults vR kR opts) ∧
    (∀ rk ∈ kR, rk.id ∉ vR.map (fun r => r.id) →
      (⟨rk.id, opts.keywordWeight * rk.score, .keyword⟩ : MergedScored)
        ∈ mergeResults vR kR opts) := by
  have hmem_output : ∀ (e : String × MergeScores),
      e ∈ addKeywordResults kR (addVectorResults vR) →
      mergeEntry opts e ∈ mergeResults vR kR opts := by
    intro e he
    rw [mergeResults]
    exact (mem_sortDesc _ _ _).mpr (List.mem_map_of_mem (mergeEntry opts) he)
  refine ⟨?_, ?_, ?_⟩
  · intro rv hrv rk hrk heq
    have hgv : mapGet (addVectorResults vR) rk.id = some ⟨rv.score, 0⟩ := by
      rw [← heq]
      exact foldlV_get_mem vR [] rv hvN hrv
    have hgf : mapGet (addKeywordResults kR (addVectorResults vR)) rk.id
        = some ⟨rv.score, rk.score⟩ := by
      rw [addKeyword_get_mem kR _ rk hkN hrk, hgv]
      rfl
    have hmem := hmem_output _ (mapGet_mem _ _ _ hgf)
    have hentry : mergeEntry opts (rk.id, ⟨rv.score, rk.score⟩)
        = ⟨rv.id, opts.vectorWeight * rv.score + opts.keywordWeight * rk.score,
            .hybrid⟩ := by
      rw [mergeEntry, if_pos ⟨hv rv hrv, hk rk hrk⟩]
      exact congrArg (fun i => MergedScored.mk i _ _) heq.symm
    rw [hentry] at hmem
    exact hmem
  · intro rv hrv hnk
    have hgf : mapGet (addKeywordResults kR (addVectorResults vR)) rv.id
        = some ⟨rv.score, 0⟩ := by
      rw [addKeyword_get_notmem kR _ rv.id hnk]
      exact foldlV_get_mem vR [] rv hvN hrv
    have hmem := hmem_output _ (mapGet_mem _ _ _ hgf)
    have hentry : mergeEntry opts (rv.id, ⟨rv.score, 0⟩)
        = ⟨rv.id, opts.vectorWeight * rv.score, .vector⟩ := by
      rw [mergeEntry, if_neg (fun h => lt_irrefl 0 h.2), if_pos (hv rv hrv)]
      simp only [mul_zero, add_zero]
    rw [hentry] at hmem
    exact hmem
  · intro rk hrk hnv
    have hgv : mapGet (addVectorResults vR) rk.id = none := by
      rw [addVectorResults] at *
      exact foldlV_get_notmem vR [] rk.id hnv
    have hgf : mapGet (addKeywordResults kR (addVectorResults vR)) rk.id
        = some ⟨0, rk.score⟩ := by
      rw [addKeyword_get_mem kR _ rk hkN hrk, hgv]
      rfl
    have hmem := hmem_output _ (mapGet_mem _ _ _ hgf)
    have hentry : mergeEntry opts (rk.id, ⟨0, rk.score⟩)
        = ⟨rk.id, opts.keywordWeight * rk.score, .keyword⟩ := by
      rw [mergeEntry, if_neg (fun h => lt_irrefl 0 h.1), if_neg (lt_irrefl 0)]
      simp only [mul_zero, zero_add]
    rw [hentry] at hmem
    exact hmem

/-- Witness for the amended C1 at concrete inputs: with default weights,
the id `"a"` present in both sets (vector `1/2`, keyword `1/4`) yields a
hybrid entry scored `7/10 × 1/2 + 3/10 × 1/4`. -/
theorem C1_witness :
    (⟨"a", DEFAULT_OPTIONS.vectorWeight * (1/2) +
        DEFAULT_OPTIONS.keywordWeight * (1/4), .hybrid⟩ : MergedScored)
      ∈ mergeResults [⟨"a", 1/2⟩] [⟨"a", 1/4⟩] DEFAULT_OPTIONS := by
  have h := (C1_merge_by_id [⟨"a", 1/2⟩] [⟨"a", 1/4⟩] DEFAULT_OPTIONS
    (by simp) (by simp)
    (fun r hr => by rcases List.mem_singleton.mp hr with rfl; norm_num)
    (fun r hr => by rcases List.mem_singleton.mp hr with rfl; norm_num)).1
  exact h ⟨"a", 1/2⟩ (List.mem_singleton.mpr rfl) ⟨"a", 1/4⟩
    (List.mem_singleton.mpr rfl) rfl

/-! ### Score-bound lemmas for the merge pipeline -/

theorem keywordSearchInternal_bounds (raw : List ScoredId)
    (hraw : ∀ r ∈ raw, 0 ≤ r.score) :
    ∀ r ∈ keywordSearchInternal raw, 0 ≤ r.score ∧ r.score ≤ 1 := by
  by_cases hne : raw = []
  · subst hne
    simp [keywordSearchInternal]
  · intro r hr
    rw [keywordSearchInternal, if_neg hne] at hr
    by_cases hmax : 0 < listMax (raw.map (fun r => r.score))
    · simp only [if_pos hmax] at hr
      obtain ⟨r0, hr0, hr0eq⟩ := List.mem_map.mp hr
      have hle : r0.score ≤ listMax (raw.map (fun r => r.score)) :=
        le_listMax _ (List.mem_map_of_mem _ hr0)
      rw [← hr0eq]
      exact ⟨div_nonneg (hraw r0 hr0) (le_of_lt hmax), (div_le_one hmax).mpr hle⟩
    · simp only [if_neg hmax] at hr
      obtain ⟨r0, hr0, hr0eq⟩ := List.mem_map.mp hr
      have hle : r0.score ≤ listMax (raw.map (fun r => r.score)) :=
        le_listMax _ (List.mem_map_of_mem _ hr0)
      have h0 : r0.score ≤ 0 := le_trans hle (le_of_not_lt hmax)
      rw [← hr0eq]
      simp only [div_one]
      exact ⟨hraw r0 hr0, le_trans h0 (by norm_num)⟩

theorem foldlV_values (vR : List ScoredId) (acc : List (String × MergeScores))
    (P : MergeScores → Prop) (hacc : ∀ p ∈ acc, P p.2)
    (hstep : ∀ r ∈ vR, P ⟨r.score, 0⟩) :
    ∀ p ∈ vR.foldl (fun acc r => mapSet acc r.id ⟨r.score, 0⟩) acc, P p.2 := by
  induction vR generalizing acc with
  | nil => exact hacc
  | cons r rest ih =>
    simp only [List.foldl_cons]
    refine ih _ ?_ (fun r' hr' => hstep r' (List.mem_cons_of_mem r hr'))
    intro p hp
    rcases mem_mapSet acc r.id p.1 ⟨r.score, 0⟩ p.2 hp with h | h
    · exact hacc _ h
    · rw [h]
      exact hstep r (List.mem_cons_self r rest)

theorem addKeyword_values (kR : List ScoredId) (acc : List (String × MergeScores))
    (P : MergeScores → Prop) (hacc : ∀ p ∈ acc, P p.2)
    (hstep : ∀ r ∈ kR, ∀ s, P s → P ⟨s.vectorScore, r.score⟩)
    (hstep0 : ∀ r ∈ kR, P ⟨0, r.score⟩) :
    ∀ p ∈ addKeywordResults kR acc, P p.2 := by
  induction kR generalizing acc with
  | nil => exact hacc
  | cons r rest ih =>
    rw [addKeywordResults_cons]
    refine ih _ ?_ (fun r' hr' s hs => hstep r' (List.mem_cons_of_mem r hr') s hs)
      (fun r' hr' => hstep0 r' (List.mem_cons_of_mem r hr'))
    intro p hp
    cases hget : mapGet acc r.id with
    | some s =>
      rw [hget] at hp
      rcases mem_mapSet acc r.id p.1 _ p.2 hp with h | h
      · exact hacc _ h
      · rw [h]
        exact hstep r (List.mem_cons_self r rest) s (hacc _ (mapGet_mem _ _ _ hget))
    | none =>
      rw [hget] at hp
      rcases mem_mapSet acc r.id p.1 _ p.2 hp with h | h
      · exact hacc _ h
      · rw [h]
        exact hstep0 r (List.mem_cons_self r rest)

theorem mergeResults_bounds (vR kR : List ScoredId) (opts : SearchOptions)
    (hv : ∀ r ∈ vR, 0 ≤ r.score ∧ r.score ≤ 1)
    (hk : ∀ r ∈ kR, 0 ≤ r.score ∧ r.score ≤ 1)
    (hvw : 0 ≤ opts.vectorWeight) (hkw : 0 ≤ opts.keywordWeight)
    (hsum : opts.vectorWeight + opts.keywordWeight ≤ 1) :
    ∀ r ∈ mergeResults vR kR opts, 0 ≤ r.score ∧ r.score ≤ 1 := by
  intro r hr
  rw [mergeResults] at hr
  obtain ⟨e, he, heq⟩ := List.mem_map.mp ((mem_sortDesc _ _ r).mp hr)
  have hP : 0 ≤ e.2.vectorScore ∧ e.2.vectorScore ≤ 1 ∧
      0 ≤ e.2.keywordScore ∧ e.2.keywordScore ≤ 1 := by
    refine addKeyword_values kR _
      (fun s => 0 ≤ s.vectorScore ∧ s.vectorScore ≤ 1 ∧
        0 ≤ s.keywordScore ∧ s.keywordScore ≤ 1) ?_ ?_ ?_ e he
    · rw [addVectorResults]
      refine foldlV_values vR []
        (fun s => 0 ≤ s.vectorScore ∧ s.vectorScore ≤ 1 ∧
          0 ≤ s.keywordScore ∧ s.keywordScore ≤ 1) (by simp) ?_
      intro r' hr'
      exact ⟨(hv r' hr').1, (hv r' hr').2, le_refl 0, by norm_num⟩
    · intro r' hr' s hs
      exact ⟨hs.1, hs.2.1, (hk r' hr').1, (hk r' hr').2⟩
    · intro r' hr'
      exact ⟨le_refl 0, by norm_num, (hk r' hr').1, (hk r' hr').2⟩
  rw [← heq]
  obtain ⟨h1, h2, h3, h4⟩ := hP
  constructor
  · show 0 ≤ opts.vectorWeight * e.2.vectorScore +
      opts.keywordWeight * e.2.keywordScore
    positivity
  · show opts.vectorWeight * e.2.vectorScore +
      opts.keywordWeight * e.2.keywordScore ≤ 1
    nlinarith

theorem mem_ite_nil_left {α : Type} (c : Prop) [Decidable c] (l : List α)
    (r : α) (h : r ∈ if c then [] else l) : r ∈ l := by
  split at h
  · cases h
  · exact h

/-- Every result returned by `search` comes from the merged, scored list
(the final filter and truncation only discard entries). -/
theorem search_mem_subset (qe : Option (List ℚ))
    (embs : List (String × List ℚ)) (raw : List ScoredId)
    (opts : SearchOptions) (present : String → Bool) :
    ∀ r ∈ search qe embs raw opts present,
      r ∈ mergeResults
        (if opts.vectorSearch then
          match qe with
          | some q => vectorSearch q embs (opts.maxResults * opts.candidateMultiplier)
          | none => []
        else [])
        (if opts.keywordSearch then keywordSearchInternal raw else [])
        opts := by
  intro r hr
  simp only [search] at hr
  exact List.mem_of_mem_filter (List.mem_of_mem_take (mem_ite_nil_left _ _ r hr))

/-- **C2 counterexample.** With `vectorWeight = keywordWeight = 1` (the
spec says the weights are configurable and need not sum to 1), a record
that is both an exact vector match and the top keyword hit is returned by
`search` with score `2`, which is outside `[0,1]`. -/
theorem C2_counterexample :
    search (some [1]) [("a", [1])] [⟨"a", 1/2⟩]
      { DEFAULT_OPTIONS with vectorWeight := 1, keywordWeight := 1 }
      (fun _ => true) = [⟨"a", 2, .hybrid⟩] ∧ ¬((2 : ℚ) ≤ 1) := by
  constructor
  · norm_num [search, mergeResults, addKeywordResults, addVectorResults, mapSet,
      mapGet, mergeEntry, sortDesc, insertDesc, DEFAULT_OPTIONS, vectorSearch,
      vectorScoreOf, cosineSimilarity, dot, keywordSearchInternal, listMax]
  · norm_num

/-- **C2 (amended).** Every `SearchResult` returned by `search` has a
score in `[0,1]` **provided** the query and stored embeddings are unit
vectors, the raw keyword scores are nonnegative, and the weights are
nonnegative with `vectorWeight + keywordWeight ≤ 1` (as the defaults
`0.7`/`0.3` are); with weights summing beyond 1 the bound fails (see the
counterexample). -/
theorem C2_score_bounds (qe : Option (List ℚ)) (embs : List (String × List ℚ))
    (raw : List ScoredId) (opts : SearchOptions) (present : String → Bool)
    (hq : ∀ q, qe = some q → dot q q = 1)
    (hembs : ∀ p ∈ embs, dot p.2 p.2 = 1)
    (hraw : ∀ r ∈ raw, 0 ≤ r.score)
    (hvw : 0 ≤ opts.vectorWeight) (hkw : 0 ≤ opts.keywordWeight)
    (hsum : opts.vectorWeight + opts.keywordWeight ≤ 1) :
    ∀ r ∈ search qe embs raw opts present, 0 ≤ r.score ∧ r.score ≤ 1 := by
  intro r hr
  have hmem := search_mem_subset qe embs raw opts present r hr
  refine mergeResults_bounds _ _ opts ?_ ?_ hvw hkw hsum r hmem
  · split
    · cases hqe : qe with
      | none => simp
      | some q =>
        intro r' hr'
        have hchar := vectorSearch_mem_char q embs
          (opts.maxResults * opts.candidateMultiplier) r' hr'
        obtain ⟨p, hp, _, hlen, hscore⟩ := hchar
        have hbounds := dot_unit_bounds (hq q hqe) (hembs p hp)
        constructor
        · rw [hscore]
          nlinarith [hbounds.1]
        · rw [hscore]
          nlinarith [hbounds.2]
    · simp
  · split
    · exact keywordSearchInternal_bounds raw hraw
    · simp

/-- Witness for the amended C2 at concrete inputs: with default weights,
unit vectors and a nonnegative raw keyword score, the returned hybrid
score `1` lies in `[0,1]`. -/
theorem C2_witness :
    (0 : ℚ) ≤ 1 ∧ (1 : ℚ) ≤ 1 := by
  have h := C2_score_bounds (some [1]) [("a", [1])] [⟨"a", 1/2⟩]
    DEFAULT_OPTIONS (fun _ => true)
    (fun q hq => by injection hq with hq; rw [← hq]; norm_num [dot])
    (fun p hp => by rcases List.mem_singleton.mp hp with rfl; norm_num [dot])
    (fun r hr => by rcases List.mem_singleton.mp hr with rfl; norm_num)
    (by norm_num [DEFAULT_OPTIONS]) (by norm_num [DEFAULT_OPTIONS])
    (by norm_num [DEFAULT_OPTIONS])
  have hmem : (⟨"a", 1, .hybrid⟩ : MergedScored)
      ∈ search (some [1]) [("a", [1])] [⟨"a", 1/2⟩] DEFAULT_OPTIONS
        (fun _ => true) := by
    norm_num [search, mergeResults, addKeywordResults, addVectorResults, mapSet,
      mapGet, mergeEntry, sortDesc, insertDesc, DEFAULT_OPTIONS, vectorSearch,
      vectorScoreOf, cosineSimilarity, dot, keywordSearchInternal, listMax]
  exact h ⟨"a", 1, .hybrid⟩ hmem

/-- The record created by a successful `storeWithDeduplication` of an
embedded candidate. -/
def capturedRecord (memx : ExtractedMemory) (sess model : String)
    (v : List ℚ) (newId : String) (now : ℤ) : MemRecord :=
  { id := newId
    category := memx.category
    content := memx.content
    embedding := some v
    embeddingModel := some model
    embeddingDims := some v.length
    sourceType := "auto_capture"
    sourceSession := some sess
    confidence := memx.confidence
    tags := memx.tags
    createdAt := now
    updatedAt := now
    lastAccessedAt := now
    accessCount := 0 }

/-- **C5.** Capture deduplication: (1) whenever any existing stored
embedding of matching dimension has `[0,1]`-remapped cosine similarity
reaching the threshold, the candidate is rejected — no id is returned and
the store is unchanged; (2) idempotence: if a capture of a unit-length
embedding succeeds (is stored), capturing the same embedding again
returns no id and leaves the store unchanged, so exactly one record is
stored across the two calls (for any threshold ≤ 1, as the default 0.90
is). -/
theorem C5_dedup_rejects (memx : ExtractedMemory) (sess model : String)
    (v : List ℚ) (thr : ℚ) (id1 id2 : String) (now1 now2 : ℤ) :
    (∀ (s : DbState) (now : ℤ) (newId : String),
      (∃ e ∈ getAllEmbeddings s,
        e.2.length = v.length ∧ thr ≤ (dot v e.2 + 1) / 2) →
      storeWithDeduplication memx sess (some v) model thr newId now s
        = (none, s)) ∧
    (dot v v = 1 → thr ≤ 1 → ∀ s : DbState,
      (storeWithDeduplication memx sess (some v) model thr id1 now1 s).1
          = some id1 →
      storeWithDeduplication memx sess (some v) model thr id2 now2
          (storeWithDeduplication memx sess (some v) model thr id1 now1 s).2
        = (none,
            (storeWithDeduplication memx sess (some v) model thr id1 now1 s).2)) := by
  constructor
  · intro s now newId ⟨e, he, hlen, hthr⟩
    have hdup : isDuplicate v thr (getAllEmbeddings s) = true :=
      isDuplicate_of_trigger v thr _ e he hlen hthr
    simp [storeWithDeduplication, hdup]
  · intro hv hthr s h1
    cases hdup : isDuplicate v thr (getAllEmbeddings s) with
    | true => simp [storeWithDeduplication, hdup] at h1
    | false =>
      set s1 := (storeWithDeduplication memx sess (some v) model thr id1 now1 s).2
        with hs1def
      have hs1 : s1
          = ⟨s.memories ++ [capturedRecord memx sess model v id1 now1], true⟩ := by
        rw [hs1def]
        simp [storeWithDeduplication, hdup, createMemory, capturedRecord]
      have hembs : getAllEmbeddings s1 = getAllEmbeddings s ++ [(id1, v)] := by
        rw [hs1]
        simp [getAllEmbeddings, List.filterMap_append, capturedRecord]
      have hdup2 : isDuplicate v thr (getAllEmbeddings s1) = true := by
        rw [hembs, isDuplicate_append, hdup]
        have htrig : isDuplicate v thr [(id1, v)] = true := by
          apply isDuplicate_of_trigger v thr _ (id1, v) (List.mem_singleton.mpr rfl)
            rfl
          rw [hv]
          norm_num
          exact hthr
        rw [htrig]
        rfl
      simp [storeWithDeduplication, hdup2]

/-- Witness for C5 at a concrete input: capturing the unit embedding `[1]`
into the empty store succeeds, and capturing it again with threshold
`0.9` returns no id and leaves the store as it was after the first
capture. -/
theorem C5_witness :
    storeWithDeduplication ⟨"c", "fact", 1, []⟩ "sess" (some [1]) "m" (9/10)
        "id2" 1
        (storeWithDeduplication ⟨"c", "fact", 1, []⟩ "sess" (some [1]) "m"
          (9/10) "id1" 0 ⟨[], false⟩).2
      = (none,
          (storeWithDeduplication ⟨"c", "fact", 1, []⟩ "sess" (some [1]) "m"
            (9/10) "id1" 0 ⟨[], false⟩).2) := by
  refine (C5_dedup_rejects ⟨"c", "fact", 1, []⟩ "sess" "m" [1] (9/10) "id1"
    "id2" 0 1).2 (by norm_num [dot]) (by norm_num) ⟨[], false⟩ ?_
  simp [storeWithDeduplication, getAllEmbeddings, isDuplicate, createMemory]

/-! ### Hash-embedding norm lemmas -/

theorem dot_map_div (m : ℚ) : ∀ (v : List ℚ),
    dot (v.map (fun x => x / m)) (v.map (fun x => x / m)) = dot v v / m ^ 2
  | [] => by simp [dot]
  | a :: as_ => by
    simp only [List.map_cons, dot, dot_map_div m as_]
    ring

/-- The all-zero hash, for concrete instantiations. -/
def constHash : JSStr → HashOut := fun _ => ⟨0, 0, fun _ => 0⟩

/-- **C7 counterexample.** The empty input text (whose lower-cased trimmed
form is empty) is mapped to the all-zero vector — of norm `0`, not unit
length — whatever the hash and the magnitude normalizer are. -/
theorem C7_counterexample :
    hashToVector constHash 4 [] 1 = List.replicate 4 0 ∧
    dot (hashToVector constHash 4 [] 1) (hashToVector constHash 4 [] 1) = 0 ∧
    (0 : ℚ) ≠ 1 := by
  have h : hashToVector constHash 4 [] 1 = List.replicate 4 0 := rfl
  refine ⟨h, ?_, by norm_num⟩
  rw [h]
  norm_num [dot, List.replicate_succ, List.replicate_zero]

/-- **C7 (amended).** For every input text whose lower-cased trimmed form
is non-empty, and whose accumulated pre-normalization vector is non-zero
(positive sum of squares), the embedding is unit length: with the
magnitude `mag` the square root of the sum of squares (`mag² = Σ vᵢ²`,
`mag > 0`), the returned vector has `‖v‖² = 1` exactly. -/
theorem C7_unit_norm (h : JSStr → HashOut) (dims : ℕ) (text : JSStr) (mag : ℚ)
    (hne : ¬((jsTrim (jsToLower text)).length = 0)) (hmag : 0 < mag)
    (hmagsq : mag ^ 2
      = dot (hashToVectorCore h dims text) (hashToVectorCore h dims text)) :
    dot (hashToVector h dims text mag) (hashToVector h dims text mag) = 1 := by
  rw [hashToVector, if_neg hne, normalizeWith, if_pos hmag, dot_map_div,
    ← hmagsq]
  exact div_self (pow_ne_zero 2 (ne_of_gt hmag))

/-- A concrete hash whose value word is `2³¹ - 1` and whose digest bytes
are all `148`, for the C7 witness computation. -/
def hW : JSStr → HashOut := fun _ => ⟨0, 2147483647, fun _ => 148⟩

/-- Witness for the amended C7 at a concrete input: for the text `"abc"`
in dimension 1, the accumulated vector is `[133/640]` (two features of
weight `1/10` plus the global perturbation `20/2560`), and the normalized
embedding has squared norm exactly 1. -/
theorem C7_witness :
    dot (hashToVector hW 1 ['a', 'b', 'c'] (133/640))
        (hashToVector hW 1 ['a', 'b', 'c'] (133/640)) = 1 := by
  refine C7_unit_norm hW 1 ['a', 'b', 'c'] (133/640) (by decide) (by norm_num) ?_
  have h1 : jsTrim (jsToLower ['a', 'b', 'c']) = ['a', 'b', 'c'] := by decide
  have h2 : trigramsOf ['a', 'b', 'c'] = [['a', 'b', 'c']] := by decide
  have h3 : wordsOf ['a', 'b', 'c'] = [['a', 'b', 'c']] := by decide
  have hcore : hashToVectorCore hW 1 ['a', 'b', 'c'] = [133/640] := by
    simp only [hashToVectorCore, h1, h2, h3, List.singleton_append,
      accumFeatures, bump, hW, List.range_succ, List.range_zero,
      List.nil_append, List.map_cons, List.map_nil]
    norm_num
  rw [hcore]
  norm_num [dot]

end LliamMemory
